import Mathlib

/-!
Verification of the multi-file upload queue coordinator of
`src/frontend/app.js` (`handleMultipleFiles`, `renderUploadQueue`,
`formatFileSize`, `handleFileUpload`).

The JavaScript is shallowly embedded: file names and labels are `List Char`,
byte counts are `Nat` (JS `File.size` is a non-negative integer; all values
in range are exact doubles), the outcome of each `await handleFileUpload`
call is a `CallOutcome` supplied as an oracle — `resolved r`: the call ran
to completion; `thrownBefore`: it threw before the `currentDocument` writes
of lines 321–322 (network failure, non-ok status, body that `json()`
rejects); `thrownAfter r`: it wrote `r` into `currentDocument` at lines
321–322 and threw afterwards (for example the `data.metadata` dereference
at line 325 on a parsable response without a `metadata` field) — DOM
rendering (`renderUploadQueue`) is modelled as appending the current queue
to a list of published snapshots, and the module-level mutable variables
`uploadQueue` / `currentDocument` are threaded explicitly as a
`GlobalState`.
-/

/-- Per-item status of the upload queue, exactly the four string values
the source assigns (`'pending'`, `'processing'`, `'done'`, `'error'`). -/
inductive Status where
  | pending
  | processing
  | done
  | error
deriving DecidableEq, Repr

instance : Inhabited Status := ⟨Status.pending⟩

/-- A file-like input as consumed by `handleMultipleFiles`: the source only
reads `file.name` and `file.size`. -/
structure FileInput where
  name : List Char
  size : Nat
deriving DecidableEq, Repr

/-- The fields of the `/upload-ocr` response body that `handleFileUpload`
stores into `currentDocument` (lines 318–322): `data.doc_id`, `data.text`. -/
structure ExtractResult where
  doc_id : Nat
  text : List Char
deriving DecidableEq, Repr

/-- The `currentDocument` global (lines 10–15), restricted to the two fields
the upload pipeline writes: `docId` (initially `null`) and `text`. -/
structure CurrentDocument where
  docId : Option Nat
  text : List Char
deriving DecidableEq, Repr

/-- One entry of `uploadQueue` as built at lines 234–240. -/
structure QueueItem where
  id : Nat
  file : FileInput
  name : List Char
  size : List Char
  status : Status
deriving DecidableEq, Repr

instance : Inhabited QueueItem :=
  ⟨{ id := 0, file := { name := [], size := 0 }, name := [], size := [],
     status := Status.pending }⟩

/-- JS `String.prototype.split(sep)` for a single-character separator, on
the character-list representation (`"".split('.')` is `[""]`, and a
trailing separator yields a trailing empty segment, as in JS). -/
def splitOn (sep : Char) : List Char → List (List Char)
  | [] => [[]]
  | c :: cs =>
    if c = sep then [] :: splitOn sep cs
    else
      match splitOn sep cs with
      | [] => [[c]]
      | s :: rest => (c :: s) :: rest

/-- JS `Array.prototype.pop()` as used at line 216: the last element of the
split (the split is never empty; `[]` is returned in the impossible case). -/
def jsPop : List (List Char) → List Char
  | [] => []
  | [s] => s
  | _ :: s :: rest => jsPop (s :: rest)

/-- The allow-list `validTypes` of line 212. -/
def validTypes : List (List Char) :=
  [".pdf".data, ".png".data, ".jpg".data, ".jpeg".data, ".tiff".data]

/-- Line 216: `'.' + file.name.split('.').pop().toLowerCase()`.
`Char.toLower` lower-cases exactly the ASCII range, which agrees with JS
`toLowerCase` on the ASCII strings compared against the allow-list. -/
def fileExt (name : List Char) : List Char :=
  '.' :: (jsPop (splitOn '.' name)).map Char.toLower

/-- The predicate of the `files.filter` callback at lines 215–218
(`validTypes.includes(ext)`). -/
def isValidFile (name : List Char) : Bool :=
  decide (fileExt name ∈ validTypes)

/-- Lines 215–218: `files.filter(file => validTypes.includes(ext))`. -/
def filterValid (files : List FileInput) : List FileInput :=
  files.filter fun f => isValidFile f.name

/-- Specification-side extension: the substring after the final `'.'` of the
name; when the name contains no `'.'` this is the whole name (the behaviour
of `split('.').pop()`, which claim C9 makes explicit). -/
def afterLastDot : List Char → List Char
  | [] => []
  | c :: cs =>
    if '.' ∈ cs then afterLastDot cs
    else if c = '.' then cs
    else c :: cs

/-- Specification-side allow-list `{pdf, png, jpg, jpeg, tiff}`, without the
leading dots the implementation prepends. -/
def allowedExts : List (List Char) :=
  ["pdf".data, "png".data, "jpg".data, "jpeg".data, "tiff".data]

/-- Specification-side filter predicate: the lower-cased extension is in the
allow-list. -/
def specAllowed (name : List Char) : Bool :=
  decide ((afterLastDot name).map Char.toLower ∈ allowedExts)

example : isValidFile "b.PDF".data = true := by decide
example : isValidFile "c.txt".data = false := by decide
example : isValidFile "pdf".data = true := by decide
example : isValidFile "a.".data = false := by decide
example : specAllowed "pdf".data = true := by decide
example : afterLastDot "a.b.jpg".data = "jpg".data := by decide

theorem splitOn_ne_nil (sep : Char) (l : List Char) : splitOn sep l ≠ [] := by
  cases l with
  | nil => simp [splitOn]
  | cons c cs =>
    simp only [splitOn]
    split
    · simp
    · split <;> simp_all

theorem splitOn_of_not_mem (l : List Char) (h : '.' ∉ l) :
    splitOn '.' l = [l] := by
  induction l with
  | nil => rfl
  | cons c cs ih =>
    simp only [List.mem_cons, not_or] at h
    have hc : ¬c = '.' := fun hcc => h.1 hcc.symm
    simp [splitOn, hc, ih h.2]

theorem jsPop_cons (s : List Char) (rest : List (List Char)) (h : rest ≠ []) :
    jsPop (s :: rest) = jsPop rest := by
  cases rest with
  | nil => exact absurd rfl h
  | cons t ts => rfl

theorem length_splitOn (l : List Char) :
    (splitOn '.' l).length = l.count '.' + 1 := by
  induction l with
  | nil => rfl
  | cons c cs ih =>
    by_cases hc : c = '.'
    · subst hc
      simp [splitOn, ih, List.count_cons]
    · simp only [splitOn, if_neg hc]
      rcases hsplit : splitOn '.' cs with _ | ⟨s, rest⟩
      · exact absurd hsplit (splitOn_ne_nil '.' cs)
      · rw [hsplit] at ih
        simp only [List.length_cons] at ih ⊢
        rw [ih]
        simp [List.count_cons, hc]

theorem afterLastDot_of_not_mem (l : List Char) (h : '.' ∉ l) :
    afterLastDot l = l := by
  cases l with
  | nil => rfl
  | cons c cs =>
    simp only [List.mem_cons, not_or] at h
    have hc : ¬c = '.' := fun hcc => h.1 hcc.symm
    simp [afterLastDot, h.2, hc]

theorem jsPop_splitOn (l : List Char) :
    jsPop (splitOn '.' l) = afterLastDot l := by
  induction l with
  | nil => rfl
  | cons c cs ih =>
    by_cases hc : c = '.'
    · subst hc
      have hstep : splitOn '.' ('.' :: cs) = [] :: splitOn '.' cs := by
        simp [splitOn]
      rw [hstep, jsPop_cons _ _ (splitOn_ne_nil '.' cs), ih]
      by_cases hmem : '.' ∈ cs
      · simp [afterLastDot, hmem]
      · simp [afterLastDot, hmem, afterLastDot_of_not_mem cs hmem]
    · simp only [splitOn, if_neg hc]
      rcases hsplit : splitOn '.' cs with _ | ⟨s, rest⟩
      · exact absurd hsplit (splitOn_ne_nil '.' cs)
      · rcases rest with _ | ⟨t, ts⟩
        · have hmem : '.' ∉ cs := by
            intro hmem
            have hlen := length_splitOn cs
            rw [hsplit] at hlen
            simp only [List.length_cons, List.length_nil] at hlen
            have hzero : cs.count '.' = 0 := by omega
            exact (List.count_eq_zero.mp hzero) hmem
          have hs : s = cs := by
            have h2 := splitOn_of_not_mem cs hmem
            rw [hsplit] at h2
            simpa using h2
          subst hs
          simp [jsPop, afterLastDot, hmem, hc]
        · have hmem : '.' ∈ cs := by
            by_contra hmem
            have := splitOn_of_not_mem cs hmem
            rw [hsplit] at this
            simp at this
          have : jsPop ((c :: s) :: t :: ts) = jsPop (t :: ts) := rfl
          rw [this, ← jsPop_cons s (t :: ts) (by simp), ← hsplit, ih]
          simp [afterLastDot, hmem]

theorem mem_validTypes_iff (t : List Char) :
    '.' :: t ∈ validTypes ↔ t ∈ allowedExts := by
  have hv : validTypes =
      ['.' :: "pdf".data, '.' :: "png".data, '.' :: "jpg".data,
       '.' :: "jpeg".data, '.' :: "tiff".data] := rfl
  rw [hv]
  simp [allowedExts]

/-- The implementation's filter predicate coincides with the
specification's: lower-cased extension (substring after the final dot,
whole name when there is no dot) in the allow-list. -/
theorem isValidFile_eq_specAllowed (name : List Char) :
    isValidFile name = specAllowed name := by
  simp only [isValidFile, specAllowed, fileExt, jsPop_splitOn]
  exact decide_eq_decide.mpr (mem_validTypes_iff _)

/-- Decimal digit string of a natural number, as JS string conversion
produces for the integers in play. -/
def natChars (n : Nat) : List Char := Nat.toDigits 10 n

/-- A quantity of tenths rendered with one digit after the decimal point,
the shape `Number.prototype.toFixed(1)` produces for the values in play. -/
def tenths (n : Nat) : List Char :=
  natChars (n / 10) ++ '.' :: natChars (n % 10)

/-- JS `(num / den).toFixed(1)` of lines 295–296 for an even divisor `den`
(1024 or 1024·1024).  For `num < 2^53` the double `num / den` is the exact
dyadic rational, and ECMA `toFixed(1)` picks the integer count of tenths
nearest to it, choosing the larger on a tie — on naturals that is
`(10 * num + den / 2) / den`. -/
def toFixed1 (num den : Nat) : List Char :=
  tenths ((10 * num + den / 2) / den)

/-- Function `formatFileSize` (lines 293–297). -/
def formatFileSize (bytes : Nat) : List Char :=
  if bytes < 1024 then natChars bytes ++ " B".data
  else if bytes < 1024 * 1024 then toFixed1 bytes 1024 ++ " KB".data
  else toFixed1 bytes (1024 * 1024) ++ " MB".data

/-- Specification-side rounding: the number of tenths in `num / den`,
rounded to the nearest integer (ties upward, `Mathlib`'s `round`). -/
def specTenths (num den : Nat) : ℤ := round ((10 * num : ℚ) / (den : ℚ))

example : formatFileSize 500 = "500 B".data := by decide
example : formatFileSize 2048 = "2.0 KB".data := by decide
example : formatFileSize 5242880 = "5.0 MB".data := by decide
example : formatFileSize 1536 = "1.5 KB".data := by decide

/-- The integer-arithmetic tenths computation of `toFixed1` agrees with
round-to-nearest-tenth for an even positive divisor. -/
theorem specTenths_eq (num den : Nat) (hdvd : 2 ∣ den) (hpos : 0 < den) :
    specTenths num den = ((10 * num + den / 2) / den : ℕ) := by
  obtain ⟨k, hk⟩ := hdvd
  subst hk
  have hkpos : 0 < k := by omega
  have hk2 : (2 * k) / 2 = k := by omega
  rw [specTenths, round_eq, hk2]
  have h1 : (10 * num : ℚ) / ((2 * k : ℕ) : ℚ) + 1 / 2 =
      ((10 * num + k : ℕ) : ℚ) / ((2 * k : ℕ) : ℚ) := by
    have hkq : ((k : ℚ)) ≠ 0 := by positivity
    push_cast
    field_simp
    ring
  rw [h1]
  have h2 : (0 : ℚ) ≤ ((10 * num + k : ℕ) : ℚ) / ((2 * k : ℕ) : ℚ) := by
    positivity
  rw [← Int.natCast_floor_eq_floor h2, Nat.floor_div_eq_div]

/-- Lines 234–240: `validFiles.map((file, index) => ({id: index, file,
name: file.name, size: formatFileSize(file.size), status: 'pending'}))`,
with `index` starting at `i`. -/
def enqueue : Nat → List FileInput → List QueueItem
  | _, [] => []
  | i, f :: rest =>
    { id := i, file := f, name := f.name, size := formatFileSize f.size,
      status := Status.pending } :: enqueue (i + 1) rest

/-- Assignment `uploadQueue[i].status = s` (lines 246, 251, 253): replace the status of
the item at position `i`, leaving everything else unchanged. -/
def setItemStatus : List QueueItem → Nat → Status → List QueueItem
  | [], _, _ => []
  | it :: rest, 0, s => { it with status := s } :: rest
  | it :: rest, n + 1, s => it :: setItemStatus rest n s

/-- Lines 321–322: `currentDocument.docId = data.doc_id;
currentDocument.text = data.text;` — the previous contents are discarded. -/
def applyUpload (_doc : CurrentDocument) (r : ExtractResult) :
    CurrentDocument :=
  { docId := some r.doc_id, text := r.text }

/-- The module-level mutable state the pipeline touches: `uploadQueue`
(line 24) and `currentDocument` (lines 10–15). -/
structure GlobalState where
  uploadQueue : List QueueItem
  currentDocument : CurrentDocument
deriving DecidableEq, Repr

/-- The toast emitted by `handleMultipleFiles`: either the early-return
`showToast('error', 'Invalid Files', …)` of lines 220–223 (the spec's
`ValidationError`) or the final `showToast('success', 'Upload Complete',
'Processed n file(s)')` of line 260. -/
inductive BatchSignal where
  | validationError
  | complete (attempted : Nat)
deriving DecidableEq, Repr

/-- Everything observable about one `handleMultipleFiles` run: the emitted
signal, the final global state, and every queue snapshot passed to
`renderUploadQueue`, in publication order. -/
structure BatchOutcome where
  signal : BatchSignal
  finalState : GlobalState
  published : List (List QueueItem)
deriving DecidableEq, Repr

/-- How one `await handleFileUpload(file)` call (lines 299–348) can end,
as seen by the loop at lines 245–258.

* `resolved r`: the promise resolved — the response was ok, parsed, and the
  whole body ran; `r` (the response's `doc_id`/`text`) was written into
  `currentDocument` at lines 321–322.
* `thrownBefore`: it threw before the writes of lines 321–322 — the `fetch`
  rejected, `response.ok` was false (line 314), or `response.json()`
  rejected (line 318); `currentDocument` is untouched.
* `thrownAfter r`: the response was ok and parsed, lines 321–322 wrote `r`
  into `currentDocument`, and a later line threw — for example the
  `data.metadata.word_count` dereference at line 325 or
  `displayOCRResults` at line 328 on a response without a `metadata`
  field.

In the last two cases the `catch` at line 252 marks the item `error`. -/
inductive CallOutcome where
  | resolved (r : ExtractResult)
  | thrownBefore
  | thrownAfter (r : ExtractResult)
deriving DecidableEq, Repr

/-- Whether the call ran to completion (the item transitions to `done`). -/
def CallOutcome.isResolved : CallOutcome → Bool
  | CallOutcome.resolved _ => true
  | _ => false

/-- The payload the call wrote into `currentDocument` at lines 321–322, if
its execution reached those lines. -/
def CallOutcome.written : CallOutcome → Option ExtractResult
  | CallOutcome.resolved r => some r
  | CallOutcome.thrownBefore => none
  | CallOutcome.thrownAfter r => some r

/-- The `for` loop of lines 245–258, processing items `i, i+1, …` with `n`
iterations remaining.  The oracle `out` gives each `await
handleFileUpload(...)` call's outcome by item index (a missing entry reads
as `thrownBefore`).  Returns (snapshots published inside the loop, final
queue, final `currentDocument`).  The loop bound `uploadQueue.length` is
constant across iterations because status assignment preserves length
(`length_setItemStatus`), so fuel `n` invoked at the queue length is
exactly the source's `i < uploadQueue.length` condition. -/
def processLoop (out : List CallOutcome) :
    Nat → Nat → List QueueItem → CurrentDocument →
      List (List QueueItem) × List QueueItem × CurrentDocument
  | 0, _, q, doc => ([], q, doc)
  | n + 1, i, q, doc =>
    let q1 := setItemStatus q i Status.processing
    let q2 := setItemStatus q1 i
      (if (out.getD i CallOutcome.thrownBefore).isResolved then Status.done
       else Status.error)
    let doc2 := match (out.getD i CallOutcome.thrownBefore).written with
      | some r => applyUpload doc r
      | none => doc
    let res := processLoop out n (i + 1) q2 doc2
    (q1 :: q2 :: res.1, res.2)

/-- Function `handleMultipleFiles` (lines 211–261), started from global state `g`
with extraction-call oracle `out`. -/
def handleMultipleFiles (g : GlobalState) (out : List CallOutcome)
    (files : List FileInput) : BatchOutcome :=
  let validFiles := filterValid files
  if validFiles.length = 0 then
    { signal := BatchSignal.validationError, finalState := g, published := [] }
  else
    let q0 := enqueue 0 validFiles
    let res := processLoop out q0.length 0 q0 g.currentDocument
    { signal := BatchSignal.complete validFiles.length,
      finalState := { uploadQueue := res.2.1, currentDocument := res.2.2 },
      published := q0 :: res.1 }

/-- Status of the item at position `p` of a queue snapshot (out-of-range
positions read as the default, `pending`). -/
def statusAt (q : List QueueItem) (p : Nat) : Status :=
  (q.getD p default).status

/-- Number of items currently in status `processing`. -/
def countProcessing (q : List QueueItem) : Nat :=
  q.countP fun it => decide (it.status = Status.processing)

theorem length_setItemStatus (q : List QueueItem) (i : Nat) (s : Status) :
    (setItemStatus q i s).length = q.length := by
  induction q generalizing i with
  | nil => rfl
  | cons it rest ih => cases i <;> simp [setItemStatus, ih]

theorem setItemStatus_getD_ne (q : List QueueItem) (i p : Nat) (s : Status)
    (d : QueueItem) (h : p ≠ i) :
    (setItemStatus q i s).getD p d = q.getD p d := by
  induction q generalizing i p with
  | nil => rfl
  | cons it rest ih =>
    cases i with
    | zero =>
      cases p with
      | zero => exact absurd rfl h
      | succ p => simp [setItemStatus]
    | succ i =>
      cases p with
      | zero => simp [setItemStatus]
      | succ p =>
        simp only [setItemStatus, List.getD_cons_succ]
        exact ih i p (by omega)

theorem setItemStatus_getD_self (q : List QueueItem) (i : Nat) (s : Status)
    (d : QueueItem) (h : i < q.length) :
    (setItemStatus q i s).getD i d = { q.getD i d with status := s } := by
  induction q generalizing i with
  | nil => simp at h
  | cons it rest ih =>
    cases i with
    | zero => simp [setItemStatus]
    | succ i =>
      simp only [setItemStatus, List.getD_cons_succ]
      exact ih i (by simp only [List.length_cons] at h; omega)

theorem setItemStatus_setItemStatus (q : List QueueItem) (i : Nat)
    (s s' : Status) :
    setItemStatus (setItemStatus q i s) i s' = setItemStatus q i s' := by
  induction q generalizing i with
  | nil => rfl
  | cons it rest ih => cases i <;> simp [setItemStatus, ih]

theorem statusAt_setItemStatus_ne (q : List QueueItem) (i p : Nat)
    (s : Status) (h : p ≠ i) :
    statusAt (setItemStatus q i s) p = statusAt q p := by
  rw [statusAt, statusAt, setItemStatus_getD_ne q i p s default h]

theorem statusAt_setItemStatus_self (q : List QueueItem) (i : Nat)
    (s : Status) (h : i < q.length) :
    statusAt (setItemStatus q i s) i = s := by
  rw [statusAt, setItemStatus_getD_self q i s default h]

theorem statusAt_of_le (q : List QueueItem) (p : Nat) (h : q.length ≤ p) :
    statusAt q p = Status.pending := by
  rw [statusAt, List.getD_eq_default]
  · rfl
  · exact h

theorem length_enqueue (i : Nat) (l : List FileInput) :
    (enqueue i l).length = l.length := by
  induction l generalizing i with
  | nil => rfl
  | cons f rest ih => simp [enqueue, ih]

theorem enqueue_map_id (i : Nat) (l : List FileInput) :
    (enqueue i l).map QueueItem.id = List.range' i l.length := by
  induction l generalizing i with
  | nil => rfl
  | cons f rest ih => simp [enqueue, ih, List.range'_succ]

theorem enqueue_map_name (i : Nat) (l : List FileInput) :
    (enqueue i l).map QueueItem.name = l.map FileInput.name := by
  induction l generalizing i with
  | nil => rfl
  | cons f rest ih => simp [enqueue, ih]

theorem enqueue_status (i : Nat) (l : List FileInput) :
    ∀ it ∈ enqueue i l, it.status = Status.pending := by
  induction l generalizing i with
  | nil => intro it hit; simp [enqueue] at hit
  | cons f rest ih =>
    intro it hit
    simp only [enqueue, List.mem_cons] at hit
    rcases hit with h | h
    · subst h; rfl
    · exact ih (i + 1) it h

theorem countProcessing_enqueue (i : Nat) (l : List FileInput) :
    countProcessing (enqueue i l) = 0 := by
  rw [countProcessing, List.countP_eq_zero]
  intro it hit
  simp [enqueue_status i l it hit]

theorem countProcessing_cons (it : QueueItem) (rest : List QueueItem) :
    countProcessing (it :: rest) =
      countProcessing rest +
        (if it.status = Status.processing then 1 else 0) := by
  simp [countProcessing, List.countP_cons]

theorem countProcessing_set_processing (q : List QueueItem) (i : Nat) :
    countProcessing (setItemStatus q i Status.processing) ≤
      countProcessing q + 1 := by
  induction q generalizing i with
  | nil => simp [setItemStatus]
  | cons it rest ih =>
    cases i with
    | zero =>
      rw [setItemStatus, countProcessing_cons, countProcessing_cons]
      split <;> split <;> omega
    | succ i =>
      rw [setItemStatus, countProcessing_cons, countProcessing_cons]
      have := ih i
      split <;> omega

theorem countProcessing_set_of_ne (q : List QueueItem) (i : Nat) (s : Status)
    (hs : s ≠ Status.processing) :
    countProcessing (setItemStatus q i s) ≤ countProcessing q := by
  induction q generalizing i with
  | nil => simp [setItemStatus]
  | cons it rest ih =>
    cases i with
    | zero =>
      rw [setItemStatus, countProcessing_cons, countProcessing_cons]
      split <;> split <;> simp_all
    | succ i =>
      rw [setItemStatus, countProcessing_cons, countProcessing_cons]
      have := ih i
      split <;> omega

theorem processLoop_count (out : List CallOutcome) :
    ∀ n i q doc, countProcessing q = 0 →
      ∀ snap ∈ (processLoop out n i q doc).1, countProcessing snap ≤ 1 := by
  intro n
  induction n with
  | zero =>
    intro i q doc _ snap hsnap
    simp [processLoop] at hsnap
  | succ n ih =>
    intro i q doc h snap hsnap
    simp only [processLoop, List.mem_cons] at hsnap
    have hterm : ¬((if (out.getD i CallOutcome.thrownBefore).isResolved then Status.done
        else Status.error) = Status.processing) := by
      split <;> simp
    have hq2 : setItemStatus (setItemStatus q i Status.processing) i
          (if (out.getD i CallOutcome.thrownBefore).isResolved then Status.done else Status.error) =
        setItemStatus q i
          (if (out.getD i CallOutcome.thrownBefore).isResolved then Status.done else Status.error) :=
      setItemStatus_setItemStatus q i _ _
    have hcount2 : countProcessing
        (setItemStatus (setItemStatus q i Status.processing) i
          (if (out.getD i CallOutcome.thrownBefore).isResolved then Status.done else Status.error))
        = 0 := by
      rw [hq2]
      have := countProcessing_set_of_ne q i _ hterm
      omega
    rcases hsnap with rfl | hsnap
    · have := countProcessing_set_processing q i
      omega
    rcases hsnap with rfl | hsnap
    · omega
    · exact ih (i + 1) _ _ hcount2 snap hsnap

/-- C1: For every input batch, the set of enqueued items equals exactly
those inputs whose extension — the substring after the final `'.'` in the
file name (the whole name when it has no dot, per `split('.').pop()`),
lower-cased — is in the allow-list {pdf, png, jpg, jpeg, tiff}, kept in
original relative order: the filtered list `handleMultipleFiles` enqueues
is the sublist of the inputs selected by the specification predicate. -/
theorem filter_correctness (files : List FileInput) :
    filterValid files = files.filter fun f => specAllowed f.name := by
  rw [filterValid]
  congr 1
  funext f
  exact isValidFile_eq_specAllowed f.name

/-- C2: at every published snapshot of a batch run, at most one queue item
has status `processing`. -/
theorem single_processing_invariant (g : GlobalState)
    (out : List CallOutcome) (files : List FileInput)
    (snap : List QueueItem)
    (h : snap ∈ (handleMultipleFiles g out files).published) :
    countProcessing snap ≤ 1 := by
  rw [handleMultipleFiles] at h
  by_cases hempty : (filterValid files).length = 0
  · simp [hempty] at h
  · simp only [hempty, if_false, List.mem_cons] at h
    rcases h with rfl | h
    · rw [countProcessing_enqueue]
      omega
    · exact processLoop_count out _ 0 _ _
        (countProcessing_enqueue 0 (filterValid files)) snap h

def exFiles : List FileInput :=
  [{ name := "a.pdf".data, size := 100 },
   { name := "b.png".data, size := 2048 },
   { name := "c.jpg".data, size := 300 }]

def exOut : List CallOutcome :=
  [CallOutcome.resolved { doc_id := 1, text := "first".data },
   CallOutcome.thrownBefore,
   CallOutcome.resolved { doc_id := 3, text := "third".data }]

def exG : GlobalState :=
  { uploadQueue := [], currentDocument := { docId := none, text := [] } }

theorem single_processing_invariant_witness :
    countProcessing
      ((handleMultipleFiles exG exOut exFiles).published.getD 3 []) ≤ 1 :=
  single_processing_invariant exG exOut exFiles
    ((handleMultipleFiles exG exOut exFiles).published.getD 3 [])
    (by decide)

/-- A status from which the source never transitions again within a batch. -/
def isTerminal (s : Status) : Prop := s = Status.done ∨ s = Status.error

instance (s : Status) : Decidable (isTerminal s) := by
  unfold isTerminal
  infer_instance

/-- Snapshot `q'` keeps every terminal status of snapshot `q` unchanged. -/
def preservesTerminal (q q' : List QueueItem) : Prop :=
  ∀ p, isTerminal (statusAt q p) → statusAt q' p = statusAt q p

theorem preservesTerminal_refl (q : List QueueItem) :
    preservesTerminal q q := fun _ _ => rfl

theorem preservesTerminal_trans {a b c : List QueueItem}
    (h1 : preservesTerminal a b) (h2 : preservesTerminal b c) :
    preservesTerminal a c := by
  intro p hp
  have hb := h1 p hp
  have hc := h2 p (by rw [hb]; exact hp)
  rw [hc, hb]

theorem preservesTerminal_set (q : List QueueItem) (i : Nat) (s : Status)
    (h : ¬isTerminal (statusAt q i)) :
    preservesTerminal q (setItemStatus q i s) := by
  intro p hp
  by_cases hpi : p = i
  · subst hpi
    exact absurd hp h
  · exact statusAt_setItemStatus_ne q i p s hpi

theorem processLoop_chain (out : List CallOutcome) :
    ∀ n i q doc, (∀ p, i ≤ p → statusAt q p = Status.pending) →
      List.Chain' preservesTerminal (q :: (processLoop out n i q doc).1) := by
  intro n
  induction n with
  | zero =>
    intro i q doc _
    simp [processLoop]
  | succ n ih =>
    intro i q doc h
    simp only [processLoop]
    have hq1 : preservesTerminal q (setItemStatus q i Status.processing) := by
      apply preservesTerminal_set
      rw [h i le_rfl]
      simp [isTerminal]
    have hq1pend : ∀ p, i + 1 ≤ p →
        statusAt (setItemStatus q i Status.processing) p = Status.pending := by
      intro p hp
      rw [statusAt_setItemStatus_ne q i p _ (by omega)]
      exact h p (by omega)
    have hq12 : preservesTerminal (setItemStatus q i Status.processing)
        (setItemStatus (setItemStatus q i Status.processing) i
          (if (out.getD i CallOutcome.thrownBefore).isResolved then Status.done else Status.error)) := by
      apply preservesTerminal_set
      by_cases hlen : i < q.length
      · rw [statusAt_setItemStatus_self q i _ hlen]
        simp [isTerminal]
      · rw [statusAt_of_le _ i (by rw [length_setItemStatus]; omega)]
        simp [isTerminal]
    have hq2pend : ∀ p, i + 1 ≤ p →
        statusAt (setItemStatus (setItemStatus q i Status.processing) i
          (if (out.getD i CallOutcome.thrownBefore).isResolved then Status.done else Status.error)) p
          = Status.pending := by
      intro p hp
      rw [statusAt_setItemStatus_ne _ i p _ (by omega)]
      exact hq1pend p hp
    have hchain := ih (i + 1) _
      (match (out.getD i CallOutcome.thrownBefore).written with
        | some r => applyUpload doc r
        | none => doc) hq2pend
    exact List.chain'_cons.mpr ⟨hq1, List.chain'_cons.mpr ⟨hq12, hchain⟩⟩

theorem chain_getD (l : List (List QueueItem))
    (hl : List.Chain' preservesTerminal l) (j k : Nat) (hjk : j ≤ k)
    (hk : k < l.length) : preservesTerminal (l.getD j []) (l.getD k []) := by
  induction k, hjk using Nat.le_induction with
  | base => exact preservesTerminal_refl _
  | succ k hjk ih =>
    have hk1 : k < l.length := by omega
    have step : preservesTerminal (l.getD k []) (l.getD (k + 1) []) := by
      rw [List.getD_eq_getElem l [] hk1, List.getD_eq_getElem l [] hk]
      have hstep := List.chain'_iff_get.mp hl k (by omega)
      simpa [List.get_eq_getElem] using hstep
    exact preservesTerminal_trans (ih hk1) step

theorem statusAt_enqueue (i : Nat) (l : List FileInput) (p : Nat) :
    statusAt (enqueue i l) p = Status.pending := by
  by_cases hp : p < (enqueue i l).length
  · rw [statusAt, List.getD_eq_getElem _ _ hp]
    exact enqueue_status i l _ (List.getElem_mem hp)
  · exact statusAt_of_le _ p (by omega)

/-- C3: once a published snapshot shows an item in a terminal status
(`done` or `error`), every later published snapshot of the batch shows the
same status for that item. -/
theorem terminal_monotonicity (g : GlobalState)
    (out : List CallOutcome) (files : List FileInput)
    (j k p : Nat) (hjk : j ≤ k)
    (hk : k < (handleMultipleFiles g out files).published.length)
    (hterm : isTerminal
      (statusAt ((handleMultipleFiles g out files).published.getD j []) p)) :
    statusAt ((handleMultipleFiles g out files).published.getD k []) p =
      statusAt ((handleMultipleFiles g out files).published.getD j []) p := by
  by_cases hempty : (filterValid files).length = 0
  · rw [handleMultipleFiles] at hk
    simp [hempty] at hk
  · have hpub : (handleMultipleFiles g out files).published =
        enqueue 0 (filterValid files) ::
          (processLoop out (enqueue 0 (filterValid files)).length 0
            (enqueue 0 (filterValid files)) g.currentDocument).1 := by
      rw [handleMultipleFiles]
      simp [hempty]
    rw [hpub] at hk hterm ⊢
    exact chain_getD _
      (processLoop_chain out _ 0 _ _
        (fun p _ => statusAt_enqueue 0 (filterValid files) p))
      j k hjk hk p hterm

theorem terminal_monotonicity_witness :
    statusAt ((handleMultipleFiles exG exOut exFiles).published.getD 6 []) 0 =
      statusAt ((handleMultipleFiles exG exOut exFiles).published.getD 2 []) 0 :=
  terminal_monotonicity exG exOut exFiles 2 6 0 (by decide) (by decide)
    (by decide)

theorem processLoop_final_lt (out : List CallOutcome) :
    ∀ n i q doc p, p < i →
      statusAt (processLoop out n i q doc).2.1 p = statusAt q p := by
  intro n
  induction n with
  | zero => intro i q doc p _; rfl
  | succ n ih =>
    intro i q doc p hp
    simp only [processLoop]
    rw [ih (i + 1) _ _ p (by omega),
        statusAt_setItemStatus_ne _ i p _ (by omega),
        statusAt_setItemStatus_ne q i p _ (by omega)]

theorem processLoop_final_status (out : List CallOutcome) :
    ∀ n i q doc p, q.length = i + n → i ≤ p → p < q.length →
      statusAt (processLoop out n i q doc).2.1 p =
        (if (out.getD p CallOutcome.thrownBefore).isResolved then Status.done else Status.error) := by
  intro n
  induction n with
  | zero => intro i q doc p hlen hip hp; omega
  | succ n ih =>
    intro i q doc p hlen hip hp
    simp only [processLoop]
    by_cases hpi : p = i
    · subst hpi
      rw [processLoop_final_lt out n (p + 1) _ _ p (by omega),
          setItemStatus_setItemStatus]
      exact statusAt_setItemStatus_self q p _ hp
    · apply ih (i + 1)
      · rw [length_setItemStatus, length_setItemStatus]
        omega
      · omega
      · rw [length_setItemStatus, length_setItemStatus]
        omega

theorem handleMultipleFiles_spec_ne (g : GlobalState)
    (out : List CallOutcome) (files : List FileInput)
    (h : ¬(filterValid files).length = 0) :
    handleMultipleFiles g out files =
      { signal := BatchSignal.complete (filterValid files).length,
        finalState :=
          { uploadQueue := (processLoop out
              (enqueue 0 (filterValid files)).length 0
              (enqueue 0 (filterValid files)) g.currentDocument).2.1,
            currentDocument := (processLoop out
              (enqueue 0 (filterValid files)).length 0
              (enqueue 0 (filterValid files)) g.currentDocument).2.2 },
        published := enqueue 0 (filterValid files) ::
          (processLoop out (enqueue 0 (filterValid files)).length 0
            (enqueue 0 (filterValid files)) g.currentDocument).1 } := by
  rw [handleMultipleFiles]
  simp [h]

/-- C4: each item's final status is determined by its own extraction call
alone — `error` exactly when that call failed, `done` exactly when it
succeeded — so one item's failure never aborts the batch or touches a
sibling, and the completion signal carries the count of filtered items
attempted (not only the successes).  Instantiated in the witness at a
3-item batch whose second call fails: final statuses `[done, error, done]`
and `complete 3`. -/
theorem failure_isolation (g : GlobalState)
    (out : List CallOutcome) (files : List FileInput) (p : Nat)
    (hp : p < (filterValid files).length) :
    statusAt (handleMultipleFiles g out files).finalState.uploadQueue p =
      (if (out.getD p CallOutcome.thrownBefore).isResolved then Status.done else Status.error) ∧
    (handleMultipleFiles g out files).signal =
      BatchSignal.complete (filterValid files).length := by
  have hne : ¬(filterValid files).length = 0 := by omega
  rw [handleMultipleFiles_spec_ne g out files hne]
  refine ⟨?_, rfl⟩
  exact processLoop_final_status out _ 0 _ _ p (by rw [length_enqueue]; omega)
    (by omega) (by rw [length_enqueue]; omega)

theorem failure_isolation_witness :
    statusAt (handleMultipleFiles exG exOut exFiles).finalState.uploadQueue 1
        = Status.error ∧
    (handleMultipleFiles exG exOut exFiles).signal =
      BatchSignal.complete 3 ∧
    (handleMultipleFiles exG exOut exFiles).finalState.uploadQueue.map
        QueueItem.status = [Status.done, Status.error, Status.done] := by
  have h := failure_isolation exG exOut exFiles 1 (by decide)
  refine ⟨?_, ?_, by decide⟩
  · rw [h.1]
    decide
  · rw [h.2]
    decide

theorem handleMultipleFiles_published_headD (g : GlobalState)
    (out : List CallOutcome) (files : List FileInput)
    (hne : ¬(filterValid files).length = 0) :
    (handleMultipleFiles g out files).published.headD []
      = enqueue 0 (filterValid files) := by
  rw [handleMultipleFiles_spec_ne g out files hne]
  rfl

/-- C5: for a batch with at least one recognized file, the initially
published queue consists of the filtered inputs in filter-output order,
with 0-based sequential ids (`id = position`) and status `pending`, and it
is the same whatever queue or document a previous batch left in the global
state (wholesale replacement, no append). -/
theorem enqueue_published (g : GlobalState)
    (out : List CallOutcome) (files : List FileInput)
    (h : filterValid files ≠ []) :
    ((handleMultipleFiles g out files).published.headD []).map QueueItem.id
        = List.range (filterValid files).length ∧
    ((handleMultipleFiles g out files).published.headD []).map QueueItem.name
        = (filterValid files).map FileInput.name ∧
    (∀ it ∈ (handleMultipleFiles g out files).published.headD [],
        it.status = Status.pending) ∧
    ∀ g2 : GlobalState,
      (handleMultipleFiles g2 out files).published.headD []
        = (handleMultipleFiles g out files).published.headD [] := by
  have hne : ¬(filterValid files).length = 0 := by
    simpa [List.length_eq_zero] using h
  rw [handleMultipleFiles_published_headD g out files hne]
  refine ⟨?_, enqueue_map_name 0 (filterValid files),
    enqueue_status 0 (filterValid files), ?_⟩
  · rw [enqueue_map_id, List.range_eq_range']
  · intro g2
    rw [handleMultipleFiles_published_headD g2 out files hne]

def exFilesMixed : List FileInput :=
  [{ name := "b.pdf".data, size := 10 }, { name := "a.png".data, size := 20 },
   { name := "c.txt".data, size := 30 }, { name := "d.jpg".data, size := 40 }]

theorem enqueue_published_witness :
    ((handleMultipleFiles exG exOut exFilesMixed).published.headD []).map
        QueueItem.name = ["b.pdf".data, "a.png".data, "d.jpg".data] ∧
    ((handleMultipleFiles exG exOut exFilesMixed).published.headD []).map
        QueueItem.id = [0, 1, 2] := by
  have h := enqueue_published exG exOut exFilesMixed (by decide)
  refine ⟨?_, ?_⟩
  · rw [h.2.1]
    decide
  · rw [h.1]
    decide

/-- C6: a batch in which no file passes the extension filter — including
the empty batch — is rejected up front: the single validation-error signal
is emitted, no queue snapshot is published, no item is processed, and the
global state (previous queue and current document) is left untouched. -/
theorem empty_batch_rejection (g : GlobalState)
    (out : List CallOutcome) (files : List FileInput)
    (h : filterValid files = []) :
    handleMultipleFiles g out files =
      { signal := BatchSignal.validationError, finalState := g,
        published := [] } := by
  rw [handleMultipleFiles]
  simp [h]

theorem empty_batch_rejection_witness :
    handleMultipleFiles exG exOut [] =
      { signal := BatchSignal.validationError, finalState := exG,
        published := [] } :=
  empty_batch_rejection exG exOut [] (by decide)

theorem processLoop_snaps_length (out : List CallOutcome) :
    ∀ n i q doc, (processLoop out n i q doc).1.length = 2 * n := by
  intro n
  induction n with
  | zero => intro i q doc; rfl
  | succ n ih =>
    intro i q doc
    simp only [processLoop, List.length_cons]
    rw [ih]
    omega

theorem processLoop_snaps_status (out : List CallOutcome) :
    ∀ n i q doc j, q.length = i + n → j < n →
      statusAt ((processLoop out n i q doc).1.getD (2 * j) []) (i + j)
          = Status.processing ∧
      statusAt ((processLoop out n i q doc).1.getD (2 * j + 1) []) (i + j)
          = (if (out.getD (i + j) CallOutcome.thrownBefore).isResolved then Status.done
             else Status.error) := by
  intro n
  induction n with
  | zero => intro i q doc j _ hj; omega
  | succ n ih =>
    intro i q doc j hlen hj
    simp only [processLoop]
    cases j with
    | zero =>
      rw [Nat.mul_zero, Nat.add_zero]
      refine ⟨?_, ?_⟩
      · rw [List.getD_cons_zero]
        exact statusAt_setItemStatus_self q i _ (by omega)
      · have e1 : (0 : Nat) + 1 = 0 + 1 := rfl
        rw [List.getD_cons_succ, List.getD_cons_zero, setItemStatus_setItemStatus]
        exact statusAt_setItemStatus_self q i _ (by omega)
    | succ j =>
      have e2 : 2 * (j + 1) = (2 * j + 1) + 1 := by ring
      have e4 : i + (j + 1) = (i + 1) + j := by ring
      rw [e2, e4, List.getD_cons_succ, List.getD_cons_succ,
        List.getD_cons_succ, List.getD_cons_succ]
      exact ih (i + 1) _ _ j
        (by rw [length_setItemStatus, length_setItemStatus]; omega) (by omega)

/-- C7: during a batch run the snapshot showing item `p` as `processing` is
published (at position `2p+1` of the publication sequence, right after the
snapshots for the previous items) strictly before the first snapshot that
reflects the outcome of item `p`'s extraction call (at position `2p+2`,
`done` or `error` exactly per the call's result), and a snapshot is
published after every single transition: a run over `n` filtered items
publishes exactly `2n + 1` snapshots. -/
theorem publish_order (g : GlobalState) (out : List CallOutcome)
    (files : List FileInput) (p : Nat)
    (hp : p < (filterValid files).length) :
    statusAt ((handleMultipleFiles g out files).published.getD (2 * p + 1) [])
        p = Status.processing ∧
    statusAt ((handleMultipleFiles g out files).published.getD (2 * p + 2) [])
        p = (if (out.getD p CallOutcome.thrownBefore).isResolved then Status.done else Status.error) ∧
    (handleMultipleFiles g out files).published.length
        = 2 * (filterValid files).length + 1 := by
  have hne : ¬(filterValid files).length = 0 := by omega
  rw [handleMultipleFiles_spec_ne g out files hne]
  have hsnap := processLoop_snaps_status out
    (enqueue 0 (filterValid files)).length 0 (enqueue 0 (filterValid files))
    g.currentDocument p (by omega) (by rw [length_enqueue]; omega)
  rw [Nat.zero_add] at hsnap
  have e5 : 2 * p + 2 = (2 * p + 1) + 1 := rfl
  refine ⟨?_, ?_, ?_⟩
  · simpa using hsnap.1
  · rw [e5]
    simpa using hsnap.2
  · simp only [List.length_cons]
    rw [processLoop_snaps_length, length_enqueue]

theorem publish_order_witness :
    statusAt ((handleMultipleFiles exG exOut exFiles).published.getD 3 []) 1
        = Status.processing ∧
    statusAt ((handleMultipleFiles exG exOut exFiles).published.getD 4 []) 1
        = Status.error ∧
    (handleMultipleFiles exG exOut exFiles).published.length = 7 := by
  have h := publish_order exG exOut exFiles 1 (by decide)
  refine ⟨by simpa using h.1, ?_, by simpa using h.2.2⟩
  have h2 := h.2.1
  simp only [show (2 * 1 + 2 : Nat) = 4 from rfl] at h2
  rw [h2]
  decide

/-- C8: the size label is the byte count below 1024 B; from 1024 B the
count of 1024ths rounded to one decimal place with a `KB` suffix; from
1024·1024 B the count of 1024·1024ths rounded to one decimal place with an
`MB` suffix — where "to 1 decimal place" is round-to-nearest-tenth (ties
upward), stated via `round` on exact rationals.  The witness instantiates
the three example byte counts 500 → `500 B`, 2048 → `2.0 KB`,
5242880 → `5.0 MB`. -/
theorem formatFileSize_spec (bytes : Nat) :
    (bytes < 1024 → formatFileSize bytes = natChars bytes ++ " B".data) ∧
    (1024 ≤ bytes → bytes < 1024 * 1024 →
      formatFileSize bytes
        = tenths (specTenths bytes 1024).toNat ++ " KB".data) ∧
    (1024 * 1024 ≤ bytes →
      formatFileSize bytes
        = tenths (specTenths bytes (1024 * 1024)).toNat ++ " MB".data) := by
  refine ⟨?_, ?_, ?_⟩
  · intro h
    rw [formatFileSize, if_pos h]
  · intro h1 h2
    rw [formatFileSize, if_neg (by omega), if_pos h2, toFixed1,
      specTenths_eq bytes 1024 (by norm_num) (by norm_num)]
    rfl
  · intro h1
    rw [formatFileSize, if_neg (by omega), if_neg (by omega), toFixed1,
      specTenths_eq bytes (1024 * 1024) (by norm_num) (by norm_num)]
    rfl

theorem formatFileSize_spec_witness :
    formatFileSize 500 = "500 B".data ∧
    formatFileSize 2048 = "2.0 KB".data ∧
    formatFileSize 5242880 = "5.0 MB".data ∧
    formatFileSize 2048 = tenths (specTenths 2048 1024).toNat ++ " KB".data :=
  ⟨by decide, by decide, by decide,
   (formatFileSize_spec 2048).2.1 (by decide) (by decide)⟩

/-- C9 counterexample: the claim reads that a dot-less file is accepted
only when named exactly `pdf`, `png`, `jpg`, `jpeg` or `tiff` and every
other dot-less name is rejected; but the filter lower-cases the extension
(line 216), so the dot-less name `PDF` — none of those five exact names —
is also accepted. -/
theorem dotless_exact_name_counterexample :
    ('.' ∉ "PDF".data) ∧
    "PDF".data ∉ ["pdf".data, "png".data, "jpg".data, "jpeg".data,
      "tiff".data] ∧
    isValidFile "PDF".data = true := by decide

/-- C9 amended: for a file name containing no `'.'` the filter uses the
entire name, lower-cased, as the extension: such a file is accepted exactly
when its lower-cased name is one of `pdf`, `png`, `jpg`, `jpeg`, `tiff`,
and every other dot-less name is rejected. -/
theorem dotless_name_filter (name : List Char) (h : '.' ∉ name) :
    isValidFile name = decide (name.map Char.toLower ∈ allowedExts) := by
  rw [isValidFile_eq_specAllowed, specAllowed, afterLastDot_of_not_mem name h]

theorem dotless_name_filter_witness :
    isValidFile "png".data
      = decide ("png".data.map Char.toLower ∈ allowedExts) ∧
    isValidFile "png".data = true ∧ isValidFile "PNG".data = true ∧
    isValidFile "doc".data = false :=
  ⟨dotless_name_filter "png".data (by decide), by decide, by decide,
   by decide⟩

/-- Specification-side: the payload of the last call in the list whose
execution reached the `currentDocument` write of lines 321–322 (a call
that resolved, or one that threw only after the write). -/
def lastWritten : List CallOutcome → Option ExtractResult
  | [] => none
  | o :: rest =>
    match lastWritten rest with
    | some r => some r
    | none => o.written

/-- The payload of the last write performed among the `n` calls
`out[i], …, out[i+n-1]` (missing entries read as pre-write failures). -/
def lastWrittenIdx (out : List CallOutcome) :
    Nat → Nat → Option ExtractResult
  | _, 0 => none
  | i, n + 1 =>
    match lastWrittenIdx out (i + 1) n with
    | some r => some r
    | none => (out.getD i CallOutcome.thrownBefore).written

theorem processLoop_doc (out : List CallOutcome) :
    ∀ n i q doc,
      (processLoop out n i q doc).2.2 =
        (match lastWrittenIdx out i n with
          | some r => applyUpload doc r
          | none => doc) := by
  intro n
  induction n with
  | zero => intro i q doc; rfl
  | succ n ih =>
    intro i q doc
    simp only [processLoop]
    rw [ih (i + 1)]
    rcases h1 : lastWrittenIdx out (i + 1) n with _ | r
    · simp [lastWrittenIdx, h1]
    · simp only [lastWrittenIdx, h1]
      rcases h2 : (out.getD i CallOutcome.thrownBefore).written with _ | r2 <;>
        simp [h2, applyUpload]

theorem lastWrittenIdx_shift (o : CallOutcome) (out : List CallOutcome) :
    ∀ n i, lastWrittenIdx (o :: out) (i + 1) n = lastWrittenIdx out i n := by
  intro n
  induction n with
  | zero => intro i; rfl
  | succ n ih =>
    intro i
    simp only [lastWrittenIdx]
    rw [ih (i + 1), List.getD_cons_succ]

theorem lastWrittenIdx_nil (m i : Nat) :
    lastWrittenIdx [] i m = none := by
  induction m generalizing i with
  | zero => rfl
  | succ m ihm => simp [lastWrittenIdx, ihm (i + 1), CallOutcome.written]

theorem lastWrittenIdx_zero (out : List CallOutcome) :
    ∀ n, lastWrittenIdx out 0 n = lastWritten (out.take n) := by
  induction out with
  | nil =>
    intro n
    simp [lastWrittenIdx_nil, lastWritten]
  | cons o out ih =>
    intro n
    cases n with
    | zero => rfl
    | succ n =>
      simp only [lastWrittenIdx, List.take_succ_cons, lastWritten]
      rw [lastWrittenIdx_shift o out n 0, ih n, List.getD_cons_zero]

def cexFiles : List FileInput := [{ name := "scan.pdf".data, size := 100 }]

def cexOut : List CallOutcome :=
  [CallOutcome.thrownAfter { doc_id := 7, text := "x".data }]

/-- C10 counterexample: the claim says only items that reach `done`
overwrite the current document, so a batch in which every item ends in
`error` would leave the document untouched.  But for a single-item batch
whose ok response parses with `doc_id = 7`, `text = "x"` and no `metadata`
field, lines 321–322 write the document and only then line 325 throws: the
item ends `error`, no item reaches `done`, yet the current document now
holds that item's result instead of the pre-batch value. -/
theorem current_document_counterexample :
    (handleMultipleFiles exG cexOut cexFiles).finalState.uploadQueue.map
        QueueItem.status = [Status.error] ∧
    (handleMultipleFiles exG cexOut cexFiles).finalState.currentDocument ≠
      exG.currentDocument ∧
    (handleMultipleFiles exG cexOut cexFiles).finalState.currentDocument =
      { docId := some 7, text := "x".data } := by decide

/-- C10 amended: every call whose execution reaches the write of lines
321–322 — one that resolves, or one that throws only afterwards (such as
the `metadata` dereference at line 325) — overwrites the shared
`currentDocument` (docId and text) wholesale, so after batch completion the
current document holds exactly the result of the last call that reached
that write, and is untouched only when no call did; earlier items' results
are never retained in coordinator state.  Every item that reaches `done`
performed the write, but an `error` item may have as well. -/
theorem current_document_overwrite (g : GlobalState)
    (out : List CallOutcome) (files : List FileInput)
    (h : filterValid files ≠ []) :
    (handleMultipleFiles g out files).finalState.currentDocument =
      (match lastWritten (out.take (filterValid files).length) with
        | some r => { docId := some r.doc_id, text := r.text }
        | none => g.currentDocument) := by
  have hne : ¬(filterValid files).length = 0 := by
    simpa [List.length_eq_zero] using h
  rw [handleMultipleFiles_spec_ne g out files hne]
  show (processLoop out (enqueue 0 (filterValid files)).length 0
      (enqueue 0 (filterValid files)) g.currentDocument).2.2 = _
  rw [processLoop_doc out _ 0 _ _, lastWrittenIdx_zero out _, length_enqueue]
  rcases hcase : lastWritten (out.take (filterValid files).length) with _ | r
  · simp
  · simp [applyUpload]

theorem current_document_overwrite_witness :
    (handleMultipleFiles exG exOut exFiles).finalState.currentDocument =
      { docId := some 3, text := "third".data } := by
  have h := current_document_overwrite exG exOut exFiles (by decide)
  rw [h]
  decide
